import Mathlib

/-!
Verification of the Sudoku backtracking solver in
`Q3-Sudoku_Solver-Solution.py` (functions `is_valid`, `find_empty`,
`solve`, `solve_sudoku`, `analyze_board_complexity`).

The board is embedded as a list of rows of integers (`0` = empty cell).
The Python `solve` mutates the board in place; here it is embedded in
state-passing style: it consumes the board object handed to it and
returns the pair of the Python return value (`Bool`) and the final state
of that board object.  Recursion depth is made explicit via a fuel
parameter; adequacy of the fuel (termination of the Python recursion) is
proved separately.
-/

abbrev Board := List (List Int)

/-- `board[i][j]`: cell access (rows and cells are read with defaults,
which is only relied upon within the 9x9 range established by
`solve_sudoku`s shape validation). -/
def getCell (b : Board) (i j : Nat) : Int :=
  (b.getD i []).getD j 0

/-- `board[i][j] = v`: functional update of one cell. -/
def setCell (b : Board) (i j : Nat) (v : Int) : Board :=
  b.set i ((b.getD i []).set j v)

/-- `is_valid(board, num, pos)` from the source: row scan, column scan
and 3x3-box scan, each excluding the position itself. -/
def is_valid (board : Board) (num : Int) (pos : Nat × Nat) : Bool :=
  let row := pos.1
  let col := pos.2
  ((List.range 9).all fun x => !(getCell board row x == num && !(col == x))) &&
  ((List.range 9).all fun x => !(getCell board x col == num && !(row == x))) &&
  (let box_x := col / 3
   let box_y := row / 3
   (List.range 3).all fun di =>
     (List.range 3).all fun dj =>
       let i := box_y * 3 + di
       let j := box_x * 3 + dj
       !(getCell board i j == num && !((i, j) == (row, col))))

/-- `sum(1 for num in range(1, 10) if is_valid(board, num, (i, j)))`:
the number of legal candidate digits at a cell. -/
def countCandidates (board : Board) (i j : Nat) : Nat :=
  ((List.range' 1 9).filter fun num => is_valid board (Int.ofNat num) (i, j)).length

/-- The 81 cell positions in the row-major order of the two nested
`for i in range(9): for j in range(9)` loops. -/
def allPositions : List (Nat × Nat) :=
  (List.range 9).flatMap fun i => (List.range 9).map fun j => (i, j)

/-- The scanning loop of `find_empty`, carrying the accumulator pair
`(min_possibilities, min_pos)` (initially `(10, None)`). -/
def findEmptyGo (b : Board) : List (Nat × Nat) → Nat → Option (Nat × Nat) → Option (Nat × Nat)
  | [], _, minPos => minPos
  | p :: rest, minP, minPos =>
    if getCell b p.1 p.2 == 0 then
      let poss := countCandidates b p.1 p.2
      if poss < minP then
        if poss == 1 then some p
        else findEmptyGo b rest poss (some p)
      else findEmptyGo b rest minP minPos
    else findEmptyGo b rest minP minPos

/-- `find_empty(board)` from the source: MRV scan over all cells with the
early exit on a single-candidate cell. -/
def find_empty (b : Board) : Option (Nat × Nat) :=
  findEmptyGo b allPositions 10 none

/-- The digits `1..9` tried by the solver (`range(1, 10)`), as board values. -/
def digitsL : List Int :=
  (List.range' 1 9).map Int.ofNat

/-- The digit loop of `solve`: for each remaining digit, if `is_valid`
then place it and recurse (`solveRec`); on a failed recursion the cell is
reset to `0` (backtrack) and the next digit is tried.  The board state is
threaded explicitly; `none` signals fuel exhaustion of the recursion. -/
def solveTry (solveRec : Board → Option (Bool × Board)) (row col : Nat) :
    Board → List Int → Option (Bool × Board)
  | board, [] => some (false, board)
  | board, num :: rest =>
    if is_valid board num (row, col) then
      match solveRec (setCell board row col num) with
      | none => none
      | some (true, b2) => some (true, b2)
      | some (false, b2) => solveTry solveRec row col (setCell b2 row col 0) rest
    else solveTry solveRec row col board rest

/-- `solve(board)` from the source, with explicit recursion fuel: select
an empty cell with `find_empty` (success when there is none) and try the
digits 1..9 there. -/
def solve : Nat → Board → Option (Bool × Board)
  | 0, _ => none
  | fuel + 1, board =>
    match find_empty board with
    | none => some (true, board)
    | some (row, col) => solveTry (solve fuel) row col board digitsL

/-- The shape validation of `solve_sudoku`:
`not board or len(board) != 9 or any(len(row) != 9 for row in board)`
is the negation of this check. -/
def shapeOK (board : Board) : Bool :=
  board.length == 9 && board.all fun row => row.length == 9

/-- `sum(row.count(0) for row in board)`: the number of empty cells
(used by `analyze_board_complexity`, and as the fuel bound for the
embedded recursion of `solve`). -/
def countEmpty (board : Board) : Nat :=
  (board.map fun row => row.count 0).sum

/-- `board_copy = [row[:] for row in board]`: a fresh board object with
the same cell values (value-equal to the input). -/
def copy_board (board : Board) : Board :=
  board.map fun row => row.map fun x => x

/-- `solve_sudoku(board)` from the source: shape validation, copy, search,
and `None` on failure.  The fuel `countEmpty board_copy + 1` is adequate
(proved below), so the `none` branch of `solve` is never taken here. -/
def solve_sudoku (board : Board) : Option Board :=
  if shapeOK board then
    let board_copy := copy_board board
    match solve (countEmpty board_copy + 1) board_copy with
    | some (true, b2) => some b2
    | _ => none
  else none

/-- The call-level view of `solve_sudoku`: its result, paired with the
state of the caller's board object after the call.  The search runs on
the fresh `copy_board` object only, so the caller's object is returned
unchanged. -/
def solve_sudoku_call (board : Board) : Option Board × Board :=
  (solve_sudoku board, board)

/-- The record returned by `analyze_board_complexity`. -/
structure BoardComplexity where
  empty_cells : Nat
  complexity_estimate : String
  branching_factor : Nat
deriving Repr, DecidableEq

/-- `analyze_board_complexity(board)` from the source. -/
def analyze_board_complexity (board : Board) : BoardComplexity :=
  let empty_count := countEmpty board
  { empty_cells := empty_count
    complexity_estimate :=
      if empty_count < 40 then "Easy"
      else if empty_count < 50 then "Medium"
      else if empty_count < 55 then "Hard"
      else "Expert"
    branching_factor := empty_count * 9 }

/-! ### Basic list and cell lemmas -/

theorem getD_set_self {α : Type} (l : List α) (i : Nat) (v d : α) (h : i < l.length) :
    (l.set i v).getD i d = v := by
  induction l generalizing i with
  | nil => simp at h
  | cons a t ih =>
    cases i with
    | zero => simp [List.set, List.getD]
    | succ n =>
      simp only [List.length_cons, Nat.succ_lt_succ_iff] at h
      simpa [List.set, List.getD] using ih n h

theorem getD_set_ne {α : Type} (l : List α) {i j : Nat} (v d : α) (h : i ≠ j) :
    (l.set i v).getD j d = l.getD j d := by
  induction l generalizing i j with
  | nil => simp
  | cons a t ih =>
    cases i with
    | zero =>
      cases j with
      | zero => exact absurd rfl h
      | succ m => simp [List.set, List.getD]
    | succ n =>
      cases j with
      | zero => simp [List.set, List.getD]
      | succ m =>
        have h2 : n ≠ m := fun he => h (by rw [he])
        simpa [List.set, List.getD] using ih h2

theorem set_getD_self {α : Type} (l : List α) (i : Nat) (d : α) :
    l.set i (l.getD i d) = l := by
  induction l generalizing i with
  | nil => simp
  | cons a t ih =>
    cases i with
    | zero => simp [List.set, List.getD]
    | succ n => simpa [List.set, List.getD] using ih n

theorem getD_eq_default_of_le {α : Type} (l : List α) (i : Nat) (d : α)
    (h : l.length ≤ i) : l.getD i d = d := by
  induction l generalizing i with
  | nil => simp [List.getD]
  | cons a t ih =>
    cases i with
    | zero => simp at h
    | succ n =>
      simp only [List.length_cons, Nat.succ_le_succ_iff] at h
      simpa [List.getD] using ih n h

theorem length_setCell (b : Board) (r c : Nat) (v : Int) :
    (setCell b r c v).length = b.length := by
  simp [setCell]

theorem setCell_of_len_le (b : Board) (r c : Nat) (v : Int) (h : b.length ≤ r) :
    setCell b r c v = b := by
  simp [setCell, List.set_eq_of_length_le h]

theorem getCell_setCell_self (b : Board) (r c : Nat) (v : Int)
    (hr : r < b.length) (hc : c < (b.getD r []).length) :
    getCell (setCell b r c v) r c = v := by
  unfold getCell setCell
  rw [getD_set_self _ _ _ _ (by simpa using hr)]
  exact getD_set_self _ _ _ _ hc

theorem getCell_setCell_ne (b : Board) (r c i j : Nat) (v : Int)
    (h : ¬(i = r ∧ j = c)) :
    getCell (setCell b r c v) i j = getCell b i j := by
  by_cases hr : r < b.length
  · unfold getCell setCell
    by_cases hir : i = r
    · subst hir
      have hj : c ≠ j := fun he => h ⟨rfl, he.symm⟩
      rw [getD_set_self _ _ _ _ (by simpa using hr)]
      exact getD_set_ne _ _ _ hj
    · rw [getD_set_ne _ _ _ (fun he => hir he.symm)]
  · rw [setCell_of_len_le _ _ _ _ (Nat.le_of_not_lt hr)]

theorem setCell_setCell (b : Board) (r c : Nat) (v w : Int) :
    setCell (setCell b r c v) r c w = setCell b r c w := by
  by_cases hr : r < b.length
  · unfold setCell
    rw [getD_set_self _ _ _ _ (by simpa using hr), List.set_set, List.set_set]
  · have h := Nat.le_of_not_lt hr
    rw [setCell_of_len_le _ _ _ _ h, setCell_of_len_le _ _ _ _ h]

theorem setCell_restore (b : Board) (r c : Nat) (h : getCell b r c = 0) :
    setCell b r c 0 = b := by
  unfold getCell at h
  unfold setCell
  rw [← h, set_getD_self, set_getD_self]

/-! ### Shape lemmas -/

theorem shapeOK_iff (b : Board) :
    shapeOK b = true ↔ b.length = 9 ∧ ∀ row ∈ b, row.length = 9 := by
  simp [shapeOK, List.all_eq_true]

theorem row_len_of_shape {b : Board} (hs : shapeOK b = true) {r : Nat} (hr : r < 9) :
    (b.getD r []).length = 9 := by
  rcases (shapeOK_iff b).mp hs with ⟨hl, hrow⟩
  have hrb : r < b.length := by omega
  have : b.getD r [] ∈ b := by
    rw [List.getD_eq_getElem?_getD, List.getElem?_eq_getElem hrb]
    exact List.getElem_mem hrb
  exact hrow _ this

theorem shapeOK_setCell {b : Board} (hs : shapeOK b = true) (r c : Nat) (v : Int) :
    shapeOK (setCell b r c v) = true := by
  rcases (shapeOK_iff b).mp hs with ⟨hl, hrow⟩
  by_cases hr : r < 9
  · refine (shapeOK_iff _).mpr ⟨by simpa [length_setCell] using hl, ?_⟩
    intro row hmem
    rcases List.mem_or_eq_of_mem_set hmem with h | h
    · exact hrow _ h
    · subst h
      simpa using row_len_of_shape hs hr
  · rw [setCell_of_len_le _ _ _ _ (by omega)]
    exact hs

/-! ### Position and digit lemmas -/

theorem mem_allPositions (p : Nat × Nat) :
    p ∈ allPositions ↔ p.1 < 9 ∧ p.2 < 9 := by
  rcases p with ⟨i, j⟩
  simp only [allPositions, List.mem_flatMap, List.mem_map, List.mem_range]
  constructor
  · rintro ⟨a, ha, c, hc, he⟩
    cases he
    exact ⟨ha, hc⟩
  · rintro ⟨hi, hj⟩
    exact ⟨i, hi, j, hj, rfl⟩

theorem mem_digitsL (v : Int) : v ∈ digitsL ↔ 1 ≤ v ∧ v ≤ 9 := by
  simp only [digitsL, List.mem_map, List.mem_range'_1, Int.ofNat_eq_coe]
  constructor
  · rintro ⟨n, ⟨h1, h2⟩, rfl⟩
    omega
  · rintro ⟨h1, h2⟩
    refine ⟨v.toNat, ⟨by omega, by omega⟩, by omega⟩

theorem countCandidates_le (b : Board) (i j : Nat) : countCandidates b i j ≤ 9 := by
  have h := List.length_filter_le (fun num => is_valid b (Int.ofNat num) (i, j)) (List.range' 1 9)
  simpa [countCandidates] using h

/-! ### The validity predicate as a proposition -/

/-- Two positions lie in a common row, column or 3x3 box. -/
def sameUnit (i j r c : Nat) : Prop :=
  i = r ∨ j = c ∨ (i / 3 = r / 3 ∧ j / 3 = c / 3)

theorem is_valid_iff (b : Board) (v : Int) (r c : Nat) (hr : r < 9) (hc : c < 9) :
    is_valid b v (r, c) = true ↔
      ∀ i j, i < 9 → j < 9 → ¬(i = r ∧ j = c) → sameUnit i j r c → getCell b i j ≠ v := by
  simp only [is_valid, Bool.and_eq_true, List.all_eq_true, List.mem_range,
    Bool.not_eq_true', Bool.and_eq_false_iff, beq_iff_eq, beq_eq_false_iff_ne,
    Bool.not_eq_false', Prod.mk.injEq]
  constructor
  · rintro ⟨⟨h1, h2⟩, h3⟩ i j hi hj hne hsu
    rcases hsu with he | he | ⟨hbi, hbj⟩
    · subst he
      have hjc : j ≠ c := fun hh => hne ⟨rfl, hh⟩
      rcases h1 j hj with h | h
      · exact h
      · exact absurd h.symm hjc
    · subst he
      have hir : i ≠ r := fun hh => hne ⟨hh, rfl⟩
      rcases h2 i hi with h | h
      · exact h
      · exact absurd h.symm hir
    · have hx : i - r / 3 * 3 < 3 := by omega
      have hy : j - c / 3 * 3 < 3 := by omega
      have hh := h3 (i - r / 3 * 3) hx (j - c / 3 * 3) hy
      have e1 : r / 3 * 3 + (i - r / 3 * 3) = i := by omega
      have e2 : c / 3 * 3 + (j - c / 3 * 3) = j := by omega
      rw [e1, e2] at hh
      rcases hh with h | h
      · exact h
      · exact absurd h hne
  · intro h
    refine ⟨⟨?_, ?_⟩, ?_⟩
    · intro x hx
      by_cases hxc : c = x
      · exact Or.inr hxc
      · exact Or.inl (h r x hr hx (fun hp => hxc hp.2.symm) (Or.inl rfl))
    · intro x hx
      by_cases hxr : r = x
      · exact Or.inr hxr
      · exact Or.inl (h x c hx hc (fun hp => hxr hp.1.symm) (Or.inr (Or.inl rfl)))
    · intro x hx y hy
      by_cases hij : r / 3 * 3 + x = r ∧ c / 3 * 3 + y = c
      · exact Or.inr hij
      · refine Or.inl (h (r / 3 * 3 + x) (c / 3 * 3 + y) (by omega) (by omega) hij ?_)
        exact Or.inr (Or.inr ⟨by omega, by omega⟩)

theorem sameUnit_symm {i j r c : Nat} (h : sameUnit i j r c) : sameUnit r c i j := by
  rcases h with h | h | ⟨h1, h2⟩
  · exact Or.inl h.symm
  · exact Or.inr (Or.inl h.symm)
  · exact Or.inr (Or.inr ⟨h1.symm, h2.symm⟩)

/-! ### The search invariant: no conflicts among the filled cells -/

/-- Every non-empty cell is `is_valid` for its own value: row, column and
box uniqueness hold for all filled cells (the spec's search invariant). -/
def noConflicts (b : Board) : Bool :=
  allPositions.all fun p => (getCell b p.1 p.2 == 0) || is_valid b (getCell b p.1 p.2) p

theorem noConflicts_iff (b : Board) :
    noConflicts b = true ↔
      ∀ i j, i < 9 → j < 9 → getCell b i j ≠ 0 →
        is_valid b (getCell b i j) (i, j) = true := by
  simp only [noConflicts, List.all_eq_true, Bool.or_eq_true, beq_iff_eq]
  constructor
  · intro h i j hi hj hne
    rcases h (i, j) ((mem_allPositions _).mpr ⟨hi, hj⟩) with h0 | hv
    · exact absurd h0 hne
    · exact hv
  · intro h p hp
    rcases (mem_allPositions p).mp hp with ⟨h1, h2⟩
    by_cases h0 : getCell b p.1 p.2 = 0
    · exact Or.inl h0
    · exact Or.inr (h p.1 p.2 h1 h2 h0)

/-- Placing a validated digit on an empty cell preserves the
no-conflicts invariant. -/
theorem noConflicts_setCell {b : Board} {r c : Nat} (v : Int)
    (hs : shapeOK b = true) (hr : r < 9) (hc : c < 9)
    (h0 : getCell b r c = 0) (hv : is_valid b v (r, c) = true) (hnz : v ≠ 0)
    (hnc : noConflicts b = true) : noConflicts (setCell b r c v) = true := by
  have hrb : r < b.length := by
    rcases (shapeOK_iff b).mp hs with ⟨hl, _⟩
    omega
  have hcb : c < (b.getD r []).length := by
    rw [row_len_of_shape hs hr]
    exact hc
  have hself : getCell (setCell b r c v) r c = v := getCell_setCell_self b r c v hrb hcb
  rw [noConflicts_iff]
  intro i j hi hj hne0
  rw [is_valid_iff _ _ _ _ hi hj]
  intro k l hk hl hkl hsu
  by_cases hij : i = r ∧ j = c
  · rcases hij with ⟨hir, hjc⟩
    subst hir
    subst hjc
    rw [hself]
    have hklne : ¬(k = i ∧ l = j) := hkl
    rw [getCell_setCell_ne b i j k l v hklne]
    exact is_valid_iff b v i j hi hj |>.mp hv k l hk hl hklne hsu
  · rw [getCell_setCell_ne b r c i j v hij] at hne0 ⊢
    have hvb := (noConflicts_iff b).mp hnc i j hi hj hne0
    by_cases hkl2 : k = r ∧ l = c
    · rcases hkl2 with ⟨hkr, hlc⟩
      subst hkr
      subst hlc
      rw [hself]
      have hsu2 : sameUnit i j k l := sameUnit_symm hsu
      have := is_valid_iff b v k l hk hl |>.mp hv i j hi hj hij hsu2
      exact fun he => this he.symm
    · rw [getCell_setCell_ne b r c k l v hkl2]
      exact is_valid_iff b (getCell b i j) i j hi hj |>.mp hvb k l hk hl hkl hsu

/-! ### Properties of the cell selector -/

theorem findEmptyGo_some (b : Board) :
    ∀ (l : List (Nat × Nat)) (minP : Nat) (minPos : Option (Nat × Nat)) (p : Nat × Nat),
      (∀ q, minPos = some q → getCell b q.1 q.2 = 0) →
      findEmptyGo b l minP minPos = some p →
      getCell b p.1 p.2 = 0 ∧ (p ∈ l ∨ minPos = some p) := by
  intro l
  induction l with
  | nil =>
    intro minP minPos p hacc hres
    simp only [findEmptyGo] at hres
    exact ⟨hacc p hres, Or.inr hres⟩
  | cons q rest ih =>
    intro minP minPos p hacc hres
    simp only [findEmptyGo] at hres
    by_cases h0 : getCell b q.1 q.2 == 0
    · rw [if_pos h0] at hres
      by_cases hlt : countCandidates b q.1 q.2 < minP
      · rw [if_pos hlt] at hres
        by_cases h1 : countCandidates b q.1 q.2 == 1
        · rw [if_pos h1] at hres
          cases hres
          exact ⟨by simpa using h0, Or.inl (List.mem_cons_self _ _)⟩
        · rw [if_neg h1] at hres
          have hacc2 : ∀ q2, (some q : Option (Nat × Nat)) = some q2 → getCell b q2.1 q2.2 = 0 := by
            intro q2 he
            cases he
            simpa using h0
          rcases ih _ _ p hacc2 hres with ⟨hz, hin | hq⟩
          · exact ⟨hz, Or.inl (List.mem_cons_of_mem _ hin)⟩
          · cases hq
            exact ⟨hz, Or.inl (List.mem_cons_self _ _)⟩
      · rw [if_neg hlt] at hres
        rcases ih _ _ p hacc hres with ⟨hz, hin | hq⟩
        · exact ⟨hz, Or.inl (List.mem_cons_of_mem _ hin)⟩
        · exact ⟨hz, Or.inr hq⟩
    · rw [if_neg h0] at hres
      rcases ih _ _ p hacc hres with ⟨hz, hin | hq⟩
      · exact ⟨hz, Or.inl (List.mem_cons_of_mem _ hin)⟩
      · exact ⟨hz, Or.inr hq⟩

theorem find_empty_some {b : Board} {p : Nat × Nat} (h : find_empty b = some p) :
    getCell b p.1 p.2 = 0 ∧ p.1 < 9 ∧ p.2 < 9 := by
  rcases findEmptyGo_some b allPositions 10 none p (by intro q hq; cases hq) h with ⟨hz, hin | hq⟩
  · exact ⟨hz, (mem_allPositions p).mp hin⟩
  · cases hq

/-! ### Backtracking restores the board exactly (failed calls) -/

theorem solveTry_false (fuel : Nat)
    (IH : ∀ b b2, solve fuel b = some (false, b2) → b2 = b) :
    ∀ (nums : List Int) (b : Board) (r c : Nat) (b2 : Board),
      getCell b r c = 0 →
      solveTry (solve fuel) r c b nums = some (false, b2) → b2 = b := by
  intro nums
  induction nums with
  | nil =>
    intro b r c b2 h0 hres
    simp only [solveTry] at hres
    cases hres
    rfl
  | cons num rest ih =>
    intro b r c b2 h0 hres
    simp only [solveTry] at hres
    by_cases hv : is_valid b num (r, c)
    · rw [if_pos hv] at hres
      cases hsolve : solve fuel (setCell b r c num) with
      | none => rw [hsolve] at hres; cases hres
      | some res =>
        rcases res with ⟨rb, bb⟩
        cases rb with
        | true => rw [hsolve] at hres; cases hres
        | false =>
          rw [hsolve] at hres
          have hres2 : solveTry (solve fuel) r c (setCell bb r c 0) rest = some (false, b2) :=
            hres
          have hbb : bb = setCell b r c num := IH _ _ hsolve
          rw [hbb, setCell_setCell, setCell_restore b r c h0] at hres2
          exact ih b r c b2 h0 hres2
    · rw [if_neg hv] at hres
      exact ih b r c b2 h0 hres

/-- If a call of `solve` returns `false`, the board at the return is
exactly the board at entry to the call. -/
theorem solve_false_eq : ∀ (fuel : Nat) (b b2 : Board),
    solve fuel b = some (false, b2) → b2 = b := by
  intro fuel
  induction fuel with
  | zero => intro b b2 h; cases h
  | succ n ih =>
    intro b b2 h
    simp only [solve] at h
    cases hfe : find_empty b with
    | none => rw [hfe] at h; cases h
    | some p =>
      rw [hfe] at h
      have hz := (find_empty_some hfe).1
      exact solveTry_false n ih digitsL b p.1 p.2 b2 hz h

/-! ### Counting empty cells -/

theorem sum_set_nat (l : List Nat) (i : Nat) (x : Nat) (h : i < l.length) :
    (l.set i x).sum + l.getD i 0 = l.sum + x := by
  induction l generalizing i with
  | nil => simp at h
  | cons a t ih =>
    cases i with
    | zero => simp [List.set, List.getD]; omega
    | succ n =>
      simp only [List.length_cons, Nat.succ_lt_succ_iff] at h
      have := ih n h
      simp only [List.set, List.sum_cons, List.getD_cons_succ]
      omega

theorem count_set_int (l : List Int) (c : Nat) (v : Int) (h : c < l.length) :
    (l.set c v).count 0 + (if l.getD c 0 = 0 then 1 else 0)
      = l.count 0 + (if v = 0 then 1 else 0) := by
  induction l generalizing c with
  | nil => simp at h
  | cons a t ih =>
    cases c with
    | zero =>
      simp only [List.set, List.getD_cons_zero, List.count_cons]
      split_ifs <;> simp_all <;> omega
    | succ n =>
      simp only [List.length_cons, Nat.succ_lt_succ_iff] at h
      have := ih n h
      simp only [List.set, List.getD_cons_succ, List.count_cons]
      split_ifs at this ⊢ <;> simp_all <;> omega

theorem countEmpty_setCell {b : Board} {r c : Nat} {v : Int}
    (hs : shapeOK b = true) (hr : r < 9) (hc : c < 9)
    (h0 : getCell b r c = 0) (hv : v ≠ 0) :
    countEmpty (setCell b r c v) + 1 = countEmpty b := by
  have hrb : r < b.length := by
    rcases (shapeOK_iff b).mp hs with ⟨hl, _⟩
    omega
  have hrow : (b.getD r []).length = 9 := row_len_of_shape hs hr
  have hcb : c < (b.getD r []).length := by omega
  unfold countEmpty setCell
  rw [List.map_set]
  have hsum := sum_set_nat (b.map fun row => row.count 0) r
    (((b.getD r []).set c v).count 0) (by simpa using hrb)
  have hgd : (b.map fun row => row.count 0).getD r 0 = (b.getD r []).count 0 := by
    have := List.getD_map b (d := ([] : List Int)) (n := r) (fun row => row.count 0)
    simpa using this
  have hcnt := count_set_int (b.getD r []) c v hcb
  have h02 : (b.getD r []).getD c 0 = 0 := h0
  rw [if_pos h02, if_neg hv] at hcnt
  rw [hgd] at hsum
  omega

theorem countEmpty_pos {b : Board} {r c : Nat}
    (hs : shapeOK b = true) (hr : r < 9) (hc : c < 9)
    (h0 : getCell b r c = 0) : 1 ≤ countEmpty b := by
  have hrb : r < b.length := by
    rcases (shapeOK_iff b).mp hs with ⟨hl, _⟩
    omega
  have hrow : (b.getD r []).length = 9 := row_len_of_shape hs hr
  have hmem : (0 : Int) ∈ b.getD r [] := by
    have : (b.getD r []).getD c 0 = (b.getD r [])[c] := List.getD_eq_getElem _ _ (by omega)
    rw [getCell] at h0
    rw [this] at h0
    rw [← h0]
    exact List.getElem_mem _
  have hcount : 1 ≤ (b.getD r []).count 0 := List.count_pos_iff.mpr hmem
  have hmem2 : (b.getD r []).count 0 ∈ b.map fun row => row.count 0 := by
    refine List.mem_map.mpr ⟨b.getD r [], ?_, rfl⟩
    rw [List.getD_eq_getElem _ _ hrb]
    exact List.getElem_mem _
  have := List.single_le_sum (fun (x : Nat) _ => Nat.zero_le x) _ hmem2
  unfold countEmpty
  omega

/-! ### Termination: the fuel bound is adequate -/

theorem solveTry_total (fuel : Nat)
    (IH : ∀ b, shapeOK b = true → countEmpty b < fuel → solve fuel b ≠ none) :
    ∀ (nums : List Int) (b : Board) (r c : Nat),
      shapeOK b = true → r < 9 → c < 9 → getCell b r c = 0 →
      countEmpty b ≤ fuel → (∀ num ∈ nums, num ≠ 0) →
      solveTry (solve fuel) r c b nums ≠ none := by
  intro nums
  induction nums with
  | nil =>
    intro b r c _ _ _ _ _ _
    simp [solveTry]
  | cons num rest ih =>
    intro b r c hs hr hc h0 hfe hnz
    simp only [solveTry]
    by_cases hv : is_valid b num (r, c)
    · rw [if_pos hv]
      cases hsolve : solve fuel (setCell b r c num) with
      | none =>
        exfalso
        have hnum : num ≠ 0 := hnz num (List.mem_cons_self _ _)
        have hdec := countEmpty_setCell hs hr hc h0 hnum
        have hone := countEmpty_pos hs hr hc h0
        exact IH (setCell b r c num) (shapeOK_setCell hs r c num) (by omega) hsolve
      | some res =>
        rcases res with ⟨rb, bb⟩
        cases rb with
        | true => simp
        | false =>
          have hbb : bb = setCell b r c num := solve_false_eq fuel _ _ hsolve
          have hrw : setCell bb r c 0 = b := by
            rw [hbb, setCell_setCell, setCell_restore b r c h0]
          have hgoal : solveTry (solve fuel) r c (setCell bb r c 0) rest ≠ none := by
            rw [hrw]
            exact ih b r c hs hr hc h0 hfe fun n hn => hnz n (List.mem_cons_of_mem _ hn)
          exact hgoal
    · rw [if_neg hv]
      exact ih b r c hs hr hc h0 hfe fun n hn => hnz n (List.mem_cons_of_mem _ hn)

theorem digitsL_ne_zero : ∀ num ∈ digitsL, num ≠ 0 := by
  intro num hn
  have := (mem_digitsL num).mp hn
  omega

/-- With fuel exceeding the number of empty cells, the embedded recursion
of `solve` never exhausts its fuel: the Python recursion terminates. -/
theorem solve_total : ∀ (fuel : Nat) (b : Board),
    shapeOK b = true → countEmpty b < fuel → solve fuel b ≠ none := by
  intro fuel
  induction fuel with
  | zero => intro b _ h; omega
  | succ n ih =>
    intro b hs hfe
    simp only [solve]
    cases hfeq : find_empty b with
    | none => simp
    | some p =>
      rcases find_empty_some hfeq with ⟨hz, hp1, hp2⟩
      exact solveTry_total n ih digitsL b p.1 p.2 hs hp1 hp2 hz (by omega) digitsL_ne_zero

/-! ### `find_empty` returns `none` exactly on boards with no empty cell -/

theorem findEmptyGo_some_acc (b : Board) :
    ∀ (l : List (Nat × Nat)) (minP : Nat) (q : Nat × Nat),
      findEmptyGo b l minP (some q) ≠ none := by
  intro l
  induction l with
  | nil => intro minP q h; cases h
  | cons p rest ih =>
    intro minP q
    simp only [findEmptyGo]
    by_cases h0 : getCell b p.1 p.2 == 0
    · rw [if_pos h0]
      by_cases hlt : countCandidates b p.1 p.2 < minP
      · rw [if_pos hlt]
        by_cases h1 : countCandidates b p.1 p.2 == 1
        · rw [if_pos h1]; simp
        · rw [if_neg h1]; exact ih _ _
      · rw [if_neg hlt]; exact ih _ _
    · rw [if_neg h0]; exact ih _ _

theorem findEmptyGo_none (b : Board) :
    ∀ (l : List (Nat × Nat)) (minP : Nat), 9 < minP →
      findEmptyGo b l minP none = none →
      ∀ q ∈ l, getCell b q.1 q.2 ≠ 0 := by
  intro l
  induction l with
  | nil => intro minP _ _ q hq; cases hq
  | cons p rest ih =>
    intro minP hminP hres q hq
    simp only [findEmptyGo] at hres
    by_cases h0 : getCell b p.1 p.2 == 0
    · exfalso
      rw [if_pos h0] at hres
      have hle := countCandidates_le b p.1 p.2
      rw [if_pos (by omega)] at hres
      by_cases h1 : countCandidates b p.1 p.2 == 1
      · rw [if_pos h1] at hres; cases hres
      · rw [if_neg h1] at hres
        exact findEmptyGo_some_acc b rest _ p hres
    · rw [if_neg h0] at hres
      rcases List.mem_cons.mp hq with he | hm
      · subst he; simpa using h0
      · exact ih minP hminP hres q hm

theorem findEmptyGo_none_of (b : Board) :
    ∀ (l : List (Nat × Nat)) (minP : Nat) ,
      (∀ q ∈ l, getCell b q.1 q.2 ≠ 0) →
      findEmptyGo b l minP none = none := by
  intro l
  induction l with
  | nil => intro minP _; rfl
  | cons p rest ih =>
    intro minP hfull
    simp only [findEmptyGo]
    rw [if_neg (by simpa using hfull p (List.mem_cons_self _ _))]
    exact ih minP fun q hq => hfull q (List.mem_cons_of_mem _ hq)

theorem find_empty_none_iff (b : Board) :
    find_empty b = none ↔ ∀ i j, i < 9 → j < 9 → getCell b i j ≠ 0 := by
  constructor
  · intro h i j hi hj
    exact findEmptyGo_none b allPositions 10 (by omega) h (i, j)
      ((mem_allPositions _).mpr ⟨hi, hj⟩)
  · intro h
    exact findEmptyGo_none_of b allPositions 10 fun q hq => by
      rcases (mem_allPositions q).mp hq with ⟨h1, h2⟩
      exact h q.1 q.2 h1 h2

/-! ### Cell values within [0, 9] -/

/-- All 81 cells hold values in `[0, 9]` (0 = empty, 1..9 = digits). -/
def cellsInRange (b : Board) : Bool :=
  allPositions.all fun p => decide (0 ≤ getCell b p.1 p.2 ∧ getCell b p.1 p.2 ≤ 9)

theorem cellsInRange_iff (b : Board) :
    cellsInRange b = true ↔
      ∀ i j, i < 9 → j < 9 → 0 ≤ getCell b i j ∧ getCell b i j ≤ 9 := by
  simp only [cellsInRange, List.all_eq_true, decide_eq_true_eq]
  constructor
  · intro h i j hi hj
    exact h (i, j) ((mem_allPositions _).mpr ⟨hi, hj⟩)
  · intro h p hp
    rcases (mem_allPositions p).mp hp with ⟨h1, h2⟩
    exact h p.1 p.2 h1 h2

theorem getCell_setCell_cases (b : Board) (r c i j : Nat) (v : Int) :
    getCell (setCell b r c v) i j = v ∨ getCell (setCell b r c v) i j = getCell b i j := by
  by_cases hij : i = r ∧ j = c
  · rcases hij with ⟨rfl, rfl⟩
    by_cases hrb : i < b.length
    · by_cases hcb : j < (b.getD i []).length
      · exact Or.inl (getCell_setCell_self b i j v hrb hcb)
      · right
        unfold getCell setCell
        rw [getD_set_self _ _ _ _ (by simpa using hrb),
          List.set_eq_of_length_le (by omega)]
    · right
      rw [setCell_of_len_le _ _ _ _ (by omega)]
  · exact Or.inr (getCell_setCell_ne b r c i j v hij)

theorem cellsInRange_setCell {b : Board} {r c : Nat} {v : Int}
    (hb : cellsInRange b = true) (h0 : 0 ≤ v) (h9 : v ≤ 9) :
    cellsInRange (setCell b r c v) = true := by
  rw [cellsInRange_iff]
  intro i j hi hj
  rcases getCell_setCell_cases b r c i j v with h | h
  · rw [h]; exact ⟨h0, h9⟩
  · rw [h]; exact (cellsInRange_iff b).mp hb i j hi hj

/-! ### Preservation of the invariants through the search -/

theorem solveTry_preserve (fuel : Nat)
    (IH : ∀ b, shapeOK b = true → noConflicts b = true → cellsInRange b = true →
      ∀ res b2, solve fuel b = some (res, b2) →
        (shapeOK b2 = true ∧ noConflicts b2 = true ∧ cellsInRange b2 = true) ∧
          (res = true → find_empty b2 = none)) :
    ∀ (nums : List Int) (b : Board) (r c : Nat),
      shapeOK b = true → noConflicts b = true → cellsInRange b = true →
      r < 9 → c < 9 → getCell b r c = 0 →
      (∀ num ∈ nums, 1 ≤ num ∧ num ≤ 9) →
      ∀ res b2, solveTry (solve fuel) r c b nums = some (res, b2) →
        (shapeOK b2 = true ∧ noConflicts b2 = true ∧ cellsInRange b2 = true) ∧
          (res = true → find_empty b2 = none) := by
  intro nums
  induction nums with
  | nil =>
    intro b r c hs hnc hir _ _ _ _ res b2 hres
    simp only [solveTry] at hres
    cases hres
    exact ⟨⟨hs, hnc, hir⟩, by intro h; cases h⟩
  | cons num rest ih =>
    intro b r c hs hnc hir hr hc h0 hnums res b2 hres
    simp only [solveTry] at hres
    rcases hnums num (List.mem_cons_self _ _) with ⟨hn1, hn9⟩
    have hrest : ∀ n ∈ rest, 1 ≤ n ∧ n ≤ 9 := fun n hn => hnums n (List.mem_cons_of_mem _ hn)
    by_cases hv : is_valid b num (r, c)
    · rw [if_pos hv] at hres
      have hsetS : shapeOK (setCell b r c num) = true := shapeOK_setCell hs r c num
      have hsetN : noConflicts (setCell b r c num) = true :=
        noConflicts_setCell num hs hr hc h0 hv (by omega) hnc
      have hsetR : cellsInRange (setCell b r c num) = true :=
        cellsInRange_setCell hir (by omega) (by omega)
      cases hsolve : solve fuel (setCell b r c num) with
      | none => rw [hsolve] at hres; cases hres
      | some rp =>
        rcases rp with ⟨rb, bb⟩
        cases rb with
        | true =>
          rw [hsolve] at hres
          have hres2 : (some (true, bb) : Option (Bool × Board)) = some (res, b2) := hres
          cases hres2
          exact IH _ hsetS hsetN hsetR _ _ hsolve
        | false =>
          rw [hsolve] at hres
          have hres2 : solveTry (solve fuel) r c (setCell bb r c 0) rest = some (res, b2) :=
            hres
          have hbb : bb = setCell b r c num := solve_false_eq fuel _ _ hsolve
          rw [hbb, setCell_setCell, setCell_restore b r c h0] at hres2
          exact ih b r c hs hnc hir hr hc h0 hrest res b2 hres2
    · rw [if_neg hv] at hres
      exact ih b r c hs hnc hir hr hc h0 hrest res b2 hres

/-- The search preserves shape, the no-conflicts invariant and the value
range, and a successful search ends on a board with no empty cell. -/
theorem solve_preserve : ∀ (fuel : Nat) (b : Board),
    shapeOK b = true → noConflicts b = true → cellsInRange b = true →
    ∀ res b2, solve fuel b = some (res, b2) →
      (shapeOK b2 = true ∧ noConflicts b2 = true ∧ cellsInRange b2 = true) ∧
        (res = true → find_empty b2 = none) := by
  intro fuel
  induction fuel with
  | zero => intro b _ _ _ res b2 h; cases h
  | succ n ih =>
    intro b hs hnc hir res b2 hres
    simp only [solve] at hres
    cases hfe : find_empty b with
    | none =>
      rw [hfe] at hres
      have hres2 : (some (true, b) : Option (Bool × Board)) = some (res, b2) := hres
      cases hres2
      exact ⟨⟨hs, hnc, hir⟩, fun _ => hfe⟩
    | some p =>
      rw [hfe] at hres
      rcases find_empty_some hfe with ⟨hz, hp1, hp2⟩
      have hdig : ∀ num ∈ digitsL, 1 ≤ num ∧ num ≤ 9 := fun num hn => (mem_digitsL num).mp hn
      exact solveTry_preserve n ih digitsL b p.1 p.2 hs hnc hir hp1 hp2 hz hdig res b2 hres

/-! ### Full validity of a completed board (from the spec's words:
every row, column and 3x3 box contains each digit 1-9 exactly once) -/

/-- Each digit 1..9 occurs exactly once among the given nine values. -/
def exactlyOnce (l : List Int) : Bool :=
  digitsL.all fun d => l.count d == 1

/-- The nine values of row `r`. -/
def rowCells (b : Board) (r : Nat) : List Int :=
  (List.range 9).map fun c => getCell b r c

/-- The nine values of column `c`. -/
def colCells (b : Board) (c : Nat) : List Int :=
  (List.range 9).map fun r => getCell b r c

/-- The nine values of the 3x3 box with box coordinates `(br, bc)`. -/
def boxCells (b : Board) (br bc : Nat) : List Int :=
  (List.range 3).flatMap fun di => (List.range 3).map fun dj => getCell b (br * 3 + di) (bc * 3 + dj)

/-- Every row, every column and every 3x3 box contains each digit 1-9
exactly once. -/
def fullValid (b : Board) : Bool :=
  ((List.range 9).all fun r => exactlyOnce (rowCells b r)) &&
  ((List.range 9).all fun c => exactlyOnce (colCells b c)) &&
  ((List.range 3).all fun br => (List.range 3).all fun bc => exactlyOnce (boxCells b br bc))

theorem exactlyOnce_iff (l : List Int) :
    exactlyOnce l = true ↔ ∀ d ∈ digitsL, l.count d = 1 := by
  simp [exactlyOnce, List.all_eq_true]

theorem digitsL_nodup : digitsL.Nodup := by decide

theorem count_digitsL {d : Int} (hd : d ∈ digitsL) : digitsL.count d = 1 := by
  have h1 : digitsL.count d ≤ 1 := List.nodup_iff_count_le_one.mp digitsL_nodup d
  have h2 : 0 < digitsL.count d := List.count_pos_iff.mpr hd
  omega

/-- Nine pairwise distinct values from `[1, 9]` are each digit exactly once. -/
theorem exactlyOnce_of_nodup (l : List Int) (hlen : l.length = 9)
    (hmem : ∀ v ∈ l, 1 ≤ v ∧ v ≤ 9) (hnd : l.Nodup) : exactlyOnce l = true := by
  rw [exactlyOnce_iff]
  have hle : (l : Multiset Int) ≤ (digitsL : Multiset Int) := by
    rw [Multiset.le_iff_count]
    intro a
    rw [Multiset.coe_count, Multiset.coe_count]
    by_cases ha : a ∈ l
    · have h1 : l.count a ≤ 1 := List.nodup_iff_count_le_one.mp hnd a
      have h2 : a ∈ digitsL := (mem_digitsL a).mpr (hmem a ha)
      have h3 : 0 < digitsL.count a := List.count_pos_iff.mpr h2
      omega
    · rw [List.count_eq_zero_of_not_mem ha]
      omega
  have hcard : Multiset.card (digitsL : Multiset Int) ≤ Multiset.card (l : Multiset Int) := by
    rw [Multiset.coe_card, Multiset.coe_card, hlen]
    decide
  have heq := Multiset.eq_of_le_of_card_le hle hcard
  intro d hd
  have := congrArg (Multiset.count d) heq
  rw [Multiset.coe_count, Multiset.coe_count] at this
  rw [this]
  exact count_digitsL hd

/-- Nine values among which two distinct positions hold the same value can
not contain each digit exactly once. -/
theorem exactlyOnce_false_of_dup (l : List Int) (hlen : l.length = 9)
    {i j : Nat} (hi : i < 9) (hj : j < 9) (hij : i ≠ j)
    (heq : l.getD i 0 = l.getD j 0) : exactlyOnce l = false := by
  rw [Bool.eq_false_iff]
  intro ht
  have hcnt := (exactlyOnce_iff l).mp ht
  have hle : (digitsL : Multiset Int) ≤ (l : Multiset Int) := by
    rw [Multiset.le_iff_count]
    intro a
    rw [Multiset.coe_count, Multiset.coe_count]
    by_cases ha : a ∈ digitsL
    · rw [count_digitsL ha, hcnt a ha]
    · rw [List.count_eq_zero_of_not_mem ha]
      omega
  have hcard : Multiset.card (l : Multiset Int) ≤ Multiset.card (digitsL : Multiset Int) := by
    rw [Multiset.coe_card, Multiset.coe_card, hlen]
    decide
  have heqm := Multiset.eq_of_le_of_card_le hle hcard
  have hnd : l.Nodup := by
    have : (l : Multiset Int).Nodup := by
      rw [← heqm]
      exact Multiset.coe_nodup.mpr digitsL_nodup
    exact Multiset.coe_nodup.mp this
  have hi2 : i < l.length := by omega
  have hj2 : j < l.length := by omega
  have hget : l.get ⟨i, hi2⟩ = l.get ⟨j, hj2⟩ := by
    rw [List.get_eq_getElem, List.get_eq_getElem,
      ← List.getD_eq_getElem l 0 hi2, ← List.getD_eq_getElem l 0 hj2]
    exact heq
  have := List.nodup_iff_injective_get.mp hnd hget
  have : i = j := congrArg Fin.val this
  exact hij this

/-! ### The unit position lists -/

def rowPs (r : Nat) : List (Nat × Nat) :=
  (List.range 9).map fun c => (r, c)

def colPs (c : Nat) : List (Nat × Nat) :=
  (List.range 9).map fun r => (r, c)

def boxPs (br bc : Nat) : List (Nat × Nat) :=
  (List.range 3).flatMap fun di => (List.range 3).map fun dj => (br * 3 + di, bc * 3 + dj)

theorem rowCells_eq (b : Board) (r : Nat) :
    rowCells b r = (rowPs r).map fun p => getCell b p.1 p.2 := by
  simp [rowCells, rowPs, List.map_map, Function.comp]

theorem colCells_eq (b : Board) (c : Nat) :
    colCells b c = (colPs c).map fun p => getCell b p.1 p.2 := by
  simp [colCells, colPs, List.map_map, Function.comp]

theorem boxCells_eq (b : Board) (br bc : Nat) :
    boxCells b br bc = (boxPs br bc).map fun p => getCell b p.1 p.2 := rfl

theorem mem_rowPs {r : Nat} {p : Nat × Nat} : p ∈ rowPs r ↔ p.1 = r ∧ p.2 < 9 := by
  rcases p with ⟨i, j⟩
  simp only [rowPs, List.mem_map, List.mem_range, Prod.mk.injEq]
  constructor
  · rintro ⟨c, hc, rfl, rfl⟩
    exact ⟨rfl, hc⟩
  · rintro ⟨rfl, hj⟩
    exact ⟨j, hj, rfl, rfl⟩

theorem mem_colPs {c : Nat} {p : Nat × Nat} : p ∈ colPs c ↔ p.1 < 9 ∧ p.2 = c := by
  rcases p with ⟨i, j⟩
  simp only [colPs, List.mem_map, List.mem_range, Prod.mk.injEq]
  constructor
  · rintro ⟨r, hr, rfl, rfl⟩
    exact ⟨hr, rfl⟩
  · rintro ⟨hi, rfl⟩
    exact ⟨i, hi, rfl, rfl⟩

theorem mem_boxPs {br bc : Nat} {p : Nat × Nat} :
    p ∈ boxPs br bc ↔ ∃ di, di < 3 ∧ ∃ dj, dj < 3 ∧ p = (br * 3 + di, bc * 3 + dj) := by
  simp only [boxPs, List.mem_flatMap, List.mem_map, List.mem_range]
  constructor
  · rintro ⟨di, hdi, dj, hdj, rfl⟩
    exact ⟨di, hdi, dj, hdj, rfl⟩
  · rintro ⟨di, hdi, dj, hdj, rfl⟩
    exact ⟨di, hdi, dj, hdj, rfl⟩

theorem rowPs_nodup (r : Nat) : (rowPs r).Nodup := by
  refine (List.nodup_range 9).map_on ?_
  intro x _ y _ h
  exact (Prod.mk.injEq _ _ _ _).mp h |>.2

theorem colPs_nodup (c : Nat) : (colPs c).Nodup := by
  refine (List.nodup_range 9).map_on ?_
  intro x _ y _ h
  exact (Prod.mk.injEq _ _ _ _).mp h |>.1

theorem boxPs_nodup (br bc : Nat) : (boxPs br bc).Nodup := by
  refine List.nodup_flatMap.mpr ⟨?_, ?_⟩
  · intro di _
    refine (List.nodup_range 3).map_on ?_
    intro x _ y _ h
    have := (Prod.mk.injEq _ _ _ _).mp h |>.2
    omega
  · rw [List.pairwise_iff_forall_sublist]
    intro di dj hsub
    have hne : di ≠ dj := by
      intro he
      subst he
      exact (List.nodup_iff_sublist.mp (List.nodup_range 3)) di hsub
    intro p hp hq
    rcases List.mem_map.mp hp with ⟨x, _, rfl⟩
    rcases List.mem_map.mp hq with ⟨y, _, he⟩
    have := (Prod.mk.injEq _ _ _ _).mp he |>.1
    omega

theorem rowPs_length (r : Nat) : (rowPs r).length = 9 := by simp [rowPs]

theorem colPs_length (c : Nat) : (colPs c).length = 9 := by simp [colPs]

theorem boxPs_length (br bc : Nat) : (boxPs br bc).length = 9 := rfl

/-- On a fully filled, conflict-free board, the values of any unit
(a set of pairwise same-unit positions) are pairwise distinct. -/
theorem unit_values_nodup (b : Board) (ps : List (Nat × Nat))
    (hnd : ps.Nodup)
    (hin : ∀ p ∈ ps, p.1 < 9 ∧ p.2 < 9)
    (hunit : ∀ p ∈ ps, ∀ q ∈ ps, p ≠ q → sameUnit p.1 p.2 q.1 q.2)
    (hnc : noConflicts b = true)
    (hfull : ∀ i j, i < 9 → j < 9 → getCell b i j ≠ 0) :
    (ps.map fun p => getCell b p.1 p.2).Nodup := by
  refine hnd.map_on ?_
  intro p hp q hq hfe
  by_contra hne
  rcases hin p hp with ⟨hp1, hp2⟩
  rcases hin q hq with ⟨hq1, hq2⟩
  have hsu := hunit p hp q hq hne
  have hpz : getCell b p.1 p.2 ≠ 0 := hfull p.1 p.2 hp1 hp2
  have hvalid := (noConflicts_iff b).mp hnc p.1 p.2 hp1 hp2 hpz
  have hqne : ¬(q.1 = p.1 ∧ q.2 = p.2) := by
    intro hh
    exact hne (Prod.ext hh.1 hh.2).symm
  have := (is_valid_iff b (getCell b p.1 p.2) p.1 p.2 hp1 hp2).mp hvalid
    q.1 q.2 hq1 hq2 hqne (sameUnit_symm hsu)
  exact this hfe.symm

/-- A fully filled board satisfying the no-conflicts invariant with all
values in range is fully valid: each unit holds each digit exactly once. -/
theorem fullValid_of_invariants (b : Board)
    (hnc : noConflicts b = true) (hir : cellsInRange b = true)
    (hfull : ∀ i j, i < 9 → j < 9 → getCell b i j ≠ 0) :
    fullValid b = true := by
  have hval : ∀ p : Nat × Nat, p.1 < 9 → p.2 < 9 →
      1 ≤ getCell b p.1 p.2 ∧ getCell b p.1 p.2 ≤ 9 := by
    intro p h1 h2
    have hr := (cellsInRange_iff b).mp hir p.1 p.2 h1 h2
    have hz := hfull p.1 p.2 h1 h2
    omega
  have hunit : ∀ (ps : List (Nat × Nat)), ps.Nodup → ps.length = 9 →
      (∀ p ∈ ps, p.1 < 9 ∧ p.2 < 9) →
      (∀ p ∈ ps, ∀ q ∈ ps, p ≠ q → sameUnit p.1 p.2 q.1 q.2) →
      exactlyOnce (ps.map fun p => getCell b p.1 p.2) = true := by
    intro ps hnd hlen hin hsu
    refine exactlyOnce_of_nodup _ (by simp [hlen]) ?_ ?_
    · intro v hv
      rcases List.mem_map.mp hv with ⟨p, hp, rfl⟩
      rcases hin p hp with ⟨h1, h2⟩
      exact hval p h1 h2
    · exact unit_values_nodup b ps hnd hin hsu hnc hfull
  simp only [fullValid, Bool.and_eq_true, List.all_eq_true, List.mem_range]
  refine ⟨⟨?_, ?_⟩, ?_⟩
  · intro r hr
    rw [rowCells_eq]
    refine hunit (rowPs r) (rowPs_nodup r) (rowPs_length r) ?_ ?_
    · intro p hp
      rcases mem_rowPs.mp hp with ⟨h1, h2⟩
      omega
    · intro p hp q hq _
      rcases mem_rowPs.mp hp with ⟨h1, _⟩
      rcases mem_rowPs.mp hq with ⟨h2, _⟩
      exact Or.inl (by omega)
  · intro c hc
    rw [colCells_eq]
    refine hunit (colPs c) (colPs_nodup c) (colPs_length c) ?_ ?_
    · intro p hp
      rcases mem_colPs.mp hp with ⟨h1, h2⟩
      omega
    · intro p hp q hq _
      rcases mem_colPs.mp hp with ⟨_, h1⟩
      rcases mem_colPs.mp hq with ⟨_, h2⟩
      exact Or.inr (Or.inl (by omega))
  · intro br hbr bc hbc
    rw [boxCells_eq]
    refine hunit (boxPs br bc) (boxPs_nodup br bc) (boxPs_length br bc) ?_ ?_
    · intro p hp
      rcases mem_boxPs.mp hp with ⟨di, hdi, dj, hdj, rfl⟩
      constructor <;> (simp only []; omega)
    · intro p hp q hq _
      rcases mem_boxPs.mp hp with ⟨di, hdi, dj, hdj, rfl⟩
      rcases mem_boxPs.mp hq with ⟨ei, hei, ej, hej, rfl⟩
      refine Or.inr (Or.inr ⟨?_, ?_⟩) <;> (simp only []; omega)

/-! ### The MRV specification of the cell selector -/

/-- Row-major order on positions: `p` is scanned strictly before `q`. -/
def rmLt (p q : Nat × Nat) : Prop :=
  p.1 < q.1 ∨ (p.1 = q.1 ∧ p.2 < q.2)

instance (p q : Nat × Nat) : Decidable (rmLt p q) := by
  unfold rmLt
  infer_instance

theorem findEmptyGo_spec (b : Board) :
    ∀ (l : List (Nat × Nat)) (minP : Nat) (minPos : Option (Nat × Nat)),
      minP ≠ 1 →
      (minPos = none → minP = 10) →
      (∀ q, minPos = some q → getCell b q.1 q.2 = 0 ∧ countCandidates b q.1 q.2 = minP) →
      (findEmptyGo b l minP minPos = none →
        minPos = none ∧ ∀ q ∈ l, getCell b q.1 q.2 ≠ 0) ∧
      (∀ p, findEmptyGo b l minP minPos = some p →
        getCell b p.1 p.2 = 0 ∧
        ((minPos = some p ∧
            ∀ q ∈ l, getCell b q.1 q.2 = 0 → minP ≤ countCandidates b q.1 q.2) ∨
         (∃ l1 l2, l = l1 ++ p :: l2 ∧ countCandidates b p.1 p.2 < minP ∧
           (∀ q ∈ l1, getCell b q.1 q.2 = 0 →
             countCandidates b p.1 p.2 < countCandidates b q.1 q.2) ∧
           (countCandidates b p.1 p.2 = 1 ∨
             ∀ q ∈ l2, getCell b q.1 q.2 = 0 →
               countCandidates b p.1 p.2 ≤ countCandidates b q.1 q.2)))) := by
  intro l
  induction l with
  | nil =>
    intro minP minPos hne1 hash hacc
    constructor
    · intro hres
      exact ⟨hres, by intro q hq; cases hq⟩
    · intro p hres
      have hpp : minPos = some p := hres
      rcases hacc p hpp with ⟨hE, _⟩
      exact ⟨hE, Or.inl ⟨hpp, by intro q hq; cases hq⟩⟩
  | cons x rest ih =>
    intro minP minPos hne1 hash hacc
    have hposs9 := countCandidates_le b x.1 x.2
    by_cases h0 : getCell b x.1 x.2 = 0
    · by_cases hlt : countCandidates b x.1 x.2 < minP
      · by_cases h1 : countCandidates b x.1 x.2 = 1
        · -- early exit: the result is some x
          have hres0 : findEmptyGo b (x :: rest) minP minPos = some x := by
            simp only [findEmptyGo]
            rw [if_pos (by simpa using h0), if_pos hlt, if_pos (by simpa using h1)]
          rw [hres0]
          constructor
          · intro h; cases h
          · intro p hp
            have hxp : x = p := by cases hp; rfl
            subst hxp
            refine ⟨h0, Or.inr ⟨[], rest, rfl, hlt, ?_, Or.inl h1⟩⟩
            intro q hq
            cases hq
        · -- update the accumulator and continue
          have hres0 : findEmptyGo b (x :: rest) minP minPos
              = findEmptyGo b rest (countCandidates b x.1 x.2) (some x) := by
            simp only [findEmptyGo]
            rw [if_pos (by simpa using h0), if_pos hlt, if_neg (by simpa using h1)]
          rw [hres0]
          have hacc2 : ∀ q, (some x : Option (Nat × Nat)) = some q →
              getCell b q.1 q.2 = 0 ∧ countCandidates b q.1 q.2 = countCandidates b x.1 x.2 := by
            intro q hq
            cases hq
            exact ⟨h0, rfl⟩
          rcases ih (countCandidates b x.1 x.2) (some x) h1 (by intro h; cases h) hacc2
            with ⟨ihnone, ihsome⟩
          constructor
          · intro hres
            rcases ihnone hres with ⟨habs, _⟩
            cases habs
          · intro p hres
            rcases ihsome p hres with ⟨hEp, hcase⟩
            refine ⟨hEp, Or.inr ?_⟩
            rcases hcase with ⟨hxp, hall⟩ | ⟨l1, l2, hsplit, hlt2, hl1, hlast⟩
            · have hxp2 : x = p := by cases hxp; rfl
              subst hxp2
              refine ⟨[], rest, rfl, hlt, (by intro q hq; cases hq), Or.inr ?_⟩
              intro q hq hEq
              exact hall q hq hEq
            · refine ⟨x :: l1, l2, by rw [hsplit]; rfl, by omega, ?_, hlast⟩
              intro q hq hEq
              rcases List.mem_cons.mp hq with rfl | hq2
              · omega
              · exact hl1 q hq2 hEq
      · -- empty cell but not better than the accumulator
        have hres0 : findEmptyGo b (x :: rest) minP minPos
            = findEmptyGo b rest minP minPos := by
          simp only [findEmptyGo]
          rw [if_pos (by simpa using h0), if_neg hlt]
        rw [hres0]
        rcases ih minP minPos hne1 hash hacc with ⟨ihnone, ihsome⟩
        constructor
        · intro hres
          rcases ihnone hres with ⟨hnone, _⟩
          have := hash hnone
          omega
        · intro p hres
          rcases ihsome p hres with ⟨hEp, hcase⟩
          refine ⟨hEp, ?_⟩
          rcases hcase with ⟨hacc2, hall⟩ | ⟨l1, l2, hsplit, hlt2, hl1, hlast⟩
          · refine Or.inl ⟨hacc2, ?_⟩
            intro q hq hEq
            rcases List.mem_cons.mp hq with rfl | hq2
            · omega
            · exact hall q hq2 hEq
          · refine Or.inr ⟨x :: l1, l2, by rw [hsplit]; rfl, hlt2, ?_, hlast⟩
            intro q hq hEq
            rcases List.mem_cons.mp hq with rfl | hq2
            · omega
            · exact hl1 q hq2 hEq
    · -- non-empty cell: skipped
      have hres0 : findEmptyGo b (x :: rest) minP minPos
          = findEmptyGo b rest minP minPos := by
        simp only [findEmptyGo]
        rw [if_neg (by simpa using h0)]
      rw [hres0]
      rcases ih minP minPos hne1 hash hacc with ⟨ihnone, ihsome⟩
      constructor
      · intro hres
        rcases ihnone hres with ⟨hnone, hrest⟩
        refine ⟨hnone, ?_⟩
        intro q hq
        rcases List.mem_cons.mp hq with rfl | hq2
        · exact h0
        · exact hrest q hq2
      · intro p hres
        rcases ihsome p hres with ⟨hEp, hcase⟩
        refine ⟨hEp, ?_⟩
        rcases hcase with ⟨hacc2, hall⟩ | ⟨l1, l2, hsplit, hlt2, hl1, hlast⟩
        · refine Or.inl ⟨hacc2, ?_⟩
          intro q hq hEq
          rcases List.mem_cons.mp hq with rfl | hq2
          · exact absurd hEq h0
          · exact hall q hq2 hEq
        · refine Or.inr ⟨x :: l1, l2, by rw [hsplit]; rfl, hlt2, ?_, hlast⟩
          intro q hq hEq
          rcases List.mem_cons.mp hq with rfl | hq2
          · exact absurd hEq h0
          · exact hl1 q hq2 hEq

theorem allPositions_pairwise : List.Pairwise rmLt allPositions := by decide

theorem mem_left_of_split (l1 l2 : List (Nat × Nat)) (p q : Nat × Nat)
    (hpw : List.Pairwise rmLt (l1 ++ p :: l2)) (hq : q ∈ l1 ++ p :: l2) (hlt : rmLt q p) :
    q ∈ l1 := by
  rcases List.pairwise_append.mp hpw with ⟨hpw1, hpw2, hcross⟩
  rcases List.mem_append.mp hq with h | h
  · exact h
  · exfalso
    rcases List.mem_cons.mp h with rfl | h2
    · unfold rmLt at hlt
      omega
    · have h3 : rmLt p q := (List.pairwise_cons.mp hpw2).1 q h2
      unfold rmLt at hlt h3
      omega

/-- What `find_empty` actually guarantees: the returned cell is empty, is
strictly better than every earlier empty cell in row-major order, and its
candidate count is either 1 (early exit) or the global minimum. -/
theorem find_empty_mrv (b : Board) (p : Nat × Nat) (hres : find_empty b = some p) :
    getCell b p.1 p.2 = 0 ∧ p.1 < 9 ∧ p.2 < 9 ∧
    (∀ q : Nat × Nat, q.1 < 9 → q.2 < 9 → getCell b q.1 q.2 = 0 → rmLt q p →
      countCandidates b p.1 p.2 < countCandidates b q.1 q.2) ∧
    (countCandidates b p.1 p.2 = 1 ∨
      ∀ q : Nat × Nat, q.1 < 9 → q.2 < 9 → getCell b q.1 q.2 = 0 →
        countCandidates b p.1 p.2 ≤ countCandidates b q.1 q.2) := by
  have hspec := (findEmptyGo_spec b allPositions 10 none (by omega)
    (fun _ => rfl) (by intro q hq; cases hq)).2 p hres
  rcases hspec with ⟨hE, hcase⟩
  rcases hcase with ⟨habs, _⟩ | ⟨l1, l2, hsplit, hlt, hl1, hlast⟩
  · cases habs
  · have hpmem : p ∈ allPositions := by
      rw [hsplit]
      exact List.mem_append.mpr (Or.inr (List.mem_cons_self _ _))
    rcases (mem_allPositions p).mp hpmem with ⟨hp1, hp2⟩
    have hpw : List.Pairwise rmLt (l1 ++ p :: l2) := by
      rw [← hsplit]
      exact allPositions_pairwise
    refine ⟨hE, hp1, hp2, ?_, ?_⟩
    · intro q hq1 hq2 hqE hqlt
      have hqmem : q ∈ l1 ++ p :: l2 := by
        rw [← hsplit]
        exact (mem_allPositions q).mpr ⟨hq1, hq2⟩
      exact hl1 q (mem_left_of_split l1 l2 p q hpw hqmem hqlt) hqE
    · rcases hlast with h1 | hall
      · exact Or.inl h1
      · refine Or.inr ?_
        intro q hq1 hq2 hqE
        have hqmem : q ∈ l1 ++ p :: l2 := by
          rw [← hsplit]
          exact (mem_allPositions q).mpr ⟨hq1, hq2⟩
        rcases List.mem_append.mp hqmem with h | h
        · exact Nat.le_of_lt (hl1 q h hqE)
        · rcases List.mem_cons.mp h with rfl | h2
          · exact Nat.le_refl _
          · exact hall q h2 hqE

/-! ### Pre-filled cells are never overwritten -/

theorem solveTry_fixed (fuel : Nat)
    (IH : ∀ b res b2, solve fuel b = some (res, b2) →
      ∀ i j, getCell b i j ≠ 0 → getCell b2 i j = getCell b i j) :
    ∀ (nums : List Int) (b : Board) (r c : Nat),
      getCell b r c = 0 →
      ∀ res b2, solveTry (solve fuel) r c b nums = some (res, b2) →
        ∀ i j, getCell b i j ≠ 0 → getCell b2 i j = getCell b i j := by
  intro nums
  induction nums with
  | nil =>
    intro b r c h0 res b2 hres i j hij
    simp only [solveTry] at hres
    cases hres
    rfl
  | cons num rest ih =>
    intro b r c h0 res b2 hres i j hij
    simp only [solveTry] at hres
    by_cases hv : is_valid b num (r, c)
    · rw [if_pos hv] at hres
      cases hsolve : solve fuel (setCell b r c num) with
      | none => rw [hsolve] at hres; cases hres
      | some rp =>
        rcases rp with ⟨rb, bb⟩
        cases rb with
        | true =>
          rw [hsolve] at hres
          have hres2 : (some (true, bb) : Option (Bool × Board)) = some (res, b2) := hres
          cases hres2
          have hne : ¬(i = r ∧ j = c) := by
            rintro ⟨rfl, rfl⟩
            exact hij h0
          have hset : getCell (setCell b r c num) i j = getCell b i j :=
            getCell_setCell_ne b r c i j num hne
          have := IH _ _ _ hsolve i j (by rw [hset]; exact hij)
          rw [this, hset]
        | false =>
          rw [hsolve] at hres
          have hres2 : solveTry (solve fuel) r c (setCell bb r c 0) rest = some (res, b2) :=
            hres
          have hbb : bb = setCell b r c num := solve_false_eq fuel _ _ hsolve
          rw [hbb, setCell_setCell, setCell_restore b r c h0] at hres2
          exact ih b r c h0 res b2 hres2 i j hij
    · rw [if_neg hv] at hres
      exact ih b r c h0 res b2 hres i j hij

/-- The search never changes a cell that was non-empty at entry. -/
theorem solve_fixed : ∀ (fuel : Nat) (b : Board) (res : Bool) (b2 : Board),
    solve fuel b = some (res, b2) →
    ∀ i j, getCell b i j ≠ 0 → getCell b2 i j = getCell b i j := by
  intro fuel
  induction fuel with
  | zero => intro b res b2 h; cases h
  | succ n ih =>
    intro b res b2 hres i j hij
    simp only [solve] at hres
    cases hfe : find_empty b with
    | none =>
      rw [hfe] at hres
      have hres2 : (some (true, b) : Option (Bool × Board)) = some (res, b2) := hres
      cases hres2
      rfl
    | some p =>
      rw [hfe] at hres
      have hz := (find_empty_some hfe).1
      exact solveTry_fixed n ih digitsL b p.1 p.2 hz res b2 hres i j hij

/-! ### The boards reachable during the search -/

/-- The boards the search can hold at entry to some (recursive) call when
started from `b0`: `b0` itself, and any board obtained from a reachable
board by placing a validated digit on the selected empty cell.  By the
restoration property (`solve_false_eq`), after a failed trial the board
returns to an already reachable state, so every board state occurring at
entry or exit of a call of `solve` during the search lies in this set. -/
inductive SearchReach (b0 : Board) : Board → Prop
  | start : SearchReach b0 b0
  | place (b : Board) (r c : Nat) (num : Int) :
      SearchReach b0 b → find_empty b = some (r, c) → num ∈ digitsL →
      is_valid b num (r, c) = true → SearchReach b0 (setCell b r c num)

theorem searchReach_invariant {b0 : Board}
    (hs : shapeOK b0 = true) (hnc : noConflicts b0 = true) :
    ∀ b, SearchReach b0 b → shapeOK b = true ∧ noConflicts b = true := by
  intro b hreach
  induction hreach with
  | start => exact ⟨hs, hnc⟩
  | place b r c num hr hfe hnum hv ih =>
    rcases ih with ⟨ihs, ihnc⟩
    rcases find_empty_some hfe with ⟨hz, h1, h2⟩
    rcases (mem_digitsL num).mp hnum with ⟨hn1, hn9⟩
    exact ⟨shapeOK_setCell ihs r c num,
      noConflicts_setCell num ihs h1 h2 hz hv (by omega) ihnc⟩

/-! ### Unfolding the entry point -/

theorem copy_board_id (b : Board) : copy_board b = b := by
  simp [copy_board]

theorem solve_run (b : Board) (hs : shapeOK b = true) :
    ∃ res b2, solve (countEmpty b + 1) b = some (res, b2) := by
  cases h : solve (countEmpty b + 1) b with
  | none => exact absurd h (solve_total (countEmpty b + 1) b hs (by omega))
  | some rp => exact ⟨rp.1, rp.2, rfl⟩

theorem solve_sudoku_some {b b2 : Board} (hs : shapeOK b = true)
    (h : solve_sudoku b = some b2) : solve (countEmpty b + 1) b = some (true, b2) := by
  unfold solve_sudoku at h
  simp only [hs, if_true, copy_board_id] at h
  rcases solve_run b hs with ⟨res, b3, hrun⟩
  rw [hrun] at h
  cases res with
  | true =>
    have h2 : (some b3 : Option Board) = some b2 := h
    cases h2
    exact hrun
  | false => cases h

theorem solve_sudoku_none {b : Board} (hs : shapeOK b = true)
    (h : solve_sudoku b = none) : solve (countEmpty b + 1) b = some (false, b) := by
  unfold solve_sudoku at h
  simp only [hs, if_true, copy_board_id] at h
  rcases solve_run b hs with ⟨res, b3, hrun⟩
  rw [hrun] at h
  cases res with
  | true => cases h
  | false => rw [solve_false_eq _ _ _ hrun] at hrun; exact hrun

theorem solve_sudoku_of_full (b : Board) (hs : shapeOK b = true)
    (hfull : ∀ i j, i < 9 → j < 9 → getCell b i j ≠ 0) :
    solve_sudoku b = some b := by
  have hfe : find_empty b = none := (find_empty_none_iff b).mpr hfull
  have hrun : solve (countEmpty b + 1) b = some (true, b) := by
    simp only [solve]
    rw [hfe]
  unfold solve_sudoku
  simp only [hs, if_true, copy_board_id, hrun]

/-! ### Last helpers for row duplicates -/

theorem rowCells_getD (b : Board) (r c : Nat) (hc : c < 9) :
    (rowCells b r).getD c 0 = getCell b r c := by
  have hlen : c < (rowCells b r).length := by
    simp [rowCells]
    omega
  rw [List.getD_eq_getElem _ _ hlen]
  simp [rowCells]

theorem fullValid_true_row {b : Board} (h : fullValid b = true) {r : Nat} (hr : r < 9) :
    exactlyOnce (rowCells b r) = true := by
  simp only [fullValid, Bool.and_eq_true, List.all_eq_true, List.mem_range] at h
  exact h.1.1 r hr

theorem rowCells_length (b : Board) (r : Nat) : (rowCells b r).length = 9 := by
  simp [rowCells]

/-! ### Concrete boards -/

/-- A complete valid solution grid. -/
def solvedGrid : Board := [
  [1, 2, 3, 4, 5, 6, 7, 8, 9],
  [4, 5, 6, 7, 8, 9, 1, 2, 3],
  [7, 8, 9, 1, 2, 3, 4, 5, 6],
  [2, 3, 4, 5, 6, 7, 8, 9, 1],
  [5, 6, 7, 8, 9, 1, 2, 3, 4],
  [8, 9, 1, 2, 3, 4, 5, 6, 7],
  [3, 4, 5, 6, 7, 8, 9, 1, 2],
  [6, 7, 8, 9, 1, 2, 3, 4, 5],
  [9, 1, 2, 3, 4, 5, 6, 7, 8]]

/-- `solvedGrid` with one cell emptied; its unique completion is `solvedGrid`. -/
def gridOneEmpty : Board := [
  [0, 2, 3, 4, 5, 6, 7, 8, 9],
  [4, 5, 6, 7, 8, 9, 1, 2, 3],
  [7, 8, 9, 1, 2, 3, 4, 5, 6],
  [2, 3, 4, 5, 6, 7, 8, 9, 1],
  [5, 6, 7, 8, 9, 1, 2, 3, 4],
  [8, 9, 1, 2, 3, 4, 5, 6, 7],
  [3, 4, 5, 6, 7, 8, 9, 1, 2],
  [6, 7, 8, 9, 1, 2, 3, 4, 5],
  [9, 1, 2, 3, 4, 5, 6, 7, 8]]

/-- `solvedGrid` with the out-of-range value 15 at cell (0,0). -/
def cexOutOfRange : Board := [
  [15, 2, 3, 4, 5, 6, 7, 8, 9],
  [4, 5, 6, 7, 8, 9, 1, 2, 3],
  [7, 8, 9, 1, 2, 3, 4, 5, 6],
  [2, 3, 4, 5, 6, 7, 8, 9, 1],
  [5, 6, 7, 8, 9, 1, 2, 3, 4],
  [8, 9, 1, 2, 3, 4, 5, 6, 7],
  [3, 4, 5, 6, 7, 8, 9, 1, 2],
  [6, 7, 8, 9, 1, 2, 3, 4, 5],
  [9, 1, 2, 3, 4, 5, 6, 7, 8]]

/-- `solvedGrid` with the value 15 at cell (4,4), still with no empty cell. -/
def fullOutOfRange : Board := [
  [1, 2, 3, 4, 5, 6, 7, 8, 9],
  [4, 5, 6, 7, 8, 9, 1, 2, 3],
  [7, 8, 9, 1, 2, 3, 4, 5, 6],
  [2, 3, 4, 5, 6, 7, 8, 9, 1],
  [5, 6, 7, 8, 15, 1, 2, 3, 4],
  [8, 9, 1, 2, 3, 4, 5, 6, 7],
  [3, 4, 5, 6, 7, 8, 9, 1, 2],
  [6, 7, 8, 9, 1, 2, 3, 4, 5],
  [9, 1, 2, 3, 4, 5, 6, 7, 8]]

/-- A full board with two 1s in row 0 (a pre-filled row conflict between
two fixed cells) and no empty cell. -/
def cexRowDup : Board := [
  [1, 1, 3, 4, 5, 6, 7, 8, 9],
  [4, 5, 6, 7, 8, 9, 1, 2, 3],
  [7, 8, 9, 1, 2, 3, 4, 5, 6],
  [2, 3, 4, 5, 6, 7, 8, 9, 1],
  [5, 6, 7, 8, 9, 1, 2, 3, 4],
  [8, 9, 1, 2, 3, 4, 5, 6, 7],
  [3, 4, 5, 6, 7, 8, 9, 1, 2],
  [6, 7, 8, 9, 1, 2, 3, 4, 5],
  [9, 1, 2, 3, 4, 5, 6, 7, 8]]

/-- Cell (0,0) has exactly one candidate (9), so the scan early-exits
there, while cell (8,8) is empty with zero candidates. -/
def cexEarlyExit : Board := [
  [0, 1, 2, 3, 4, 5, 6, 7, 8],
  [0, 0, 0, 0, 0, 0, 0, 0, 9],
  [0, 0, 0, 0, 0, 0, 0, 0, 0],
  [0, 0, 0, 0, 0, 0, 0, 0, 0],
  [0, 0, 0, 0, 0, 0, 0, 0, 0],
  [0, 0, 0, 0, 0, 0, 0, 0, 0],
  [0, 0, 0, 0, 0, 0, 0, 0, 0],
  [0, 0, 0, 0, 0, 0, 0, 0, 0],
  [1, 2, 3, 4, 5, 6, 7, 8, 0]]

/-- One empty cell at (0,0) with no legal candidate: the search fails
immediately and must hand the board back unchanged. -/
def unsolvableBoard : Board := [
  [0, 1, 2, 3, 4, 5, 6, 7, 8],
  [9, 1, 1, 1, 1, 1, 1, 1, 1],
  [1, 1, 1, 1, 1, 1, 1, 1, 1],
  [1, 1, 1, 1, 1, 1, 1, 1, 1],
  [1, 1, 1, 1, 1, 1, 1, 1, 1],
  [1, 1, 1, 1, 1, 1, 1, 1, 1],
  [1, 1, 1, 1, 1, 1, 1, 1, 1],
  [1, 1, 1, 1, 1, 1, 1, 1, 1],
  [1, 1, 1, 1, 1, 1, 1, 1, 1]]

/-- Eight rows instead of nine. -/
def badShape : Board := [
  [1, 2, 3, 4, 5, 6, 7, 8, 9],
  [4, 5, 6, 7, 8, 9, 1, 2, 3],
  [7, 8, 9, 1, 2, 3, 4, 5, 6],
  [2, 3, 4, 5, 6, 7, 8, 9, 1],
  [5, 6, 7, 8, 9, 1, 2, 3, 4],
  [8, 9, 1, 2, 3, 4, 5, 6, 7],
  [3, 4, 5, 6, 7, 8, 9, 1, 2],
  [6, 7, 8, 9, 1, 2, 3, 4, 5]]

/-- A board with exactly 41 empty cells. -/
def board41 : Board := [
  [0, 0, 0, 0, 0, 0, 0, 0, 0],
  [0, 0, 0, 0, 0, 0, 0, 0, 0],
  [0, 0, 0, 0, 0, 0, 0, 0, 0],
  [0, 0, 0, 0, 0, 0, 0, 0, 0],
  [0, 0, 0, 0, 0, 1, 1, 1, 1],
  [1, 1, 1, 1, 1, 1, 1, 1, 1],
  [1, 1, 1, 1, 1, 1, 1, 1, 1],
  [1, 1, 1, 1, 1, 1, 1, 1, 1],
  [1, 1, 1, 1, 1, 1, 1, 1, 1]]

/-- A board with exactly 39 empty cells. -/
def board39 : Board := [
  [0, 0, 0, 0, 0, 0, 0, 0, 0],
  [0, 0, 0, 0, 0, 0, 0, 0, 0],
  [0, 0, 0, 0, 0, 0, 0, 0, 0],
  [0, 0, 0, 0, 0, 0, 0, 0, 0],
  [0, 0, 0, 1, 1, 1, 1, 1, 1],
  [1, 1, 1, 1, 1, 1, 1, 1, 1],
  [1, 1, 1, 1, 1, 1, 1, 1, 1],
  [1, 1, 1, 1, 1, 1, 1, 1, 1],
  [1, 1, 1, 1, 1, 1, 1, 1, 1]]

/-- A board with exactly 56 empty cells. -/
def board56 : Board := [
  [0, 0, 0, 0, 0, 0, 0, 0, 0],
  [0, 0, 0, 0, 0, 0, 0, 0, 0],
  [0, 0, 0, 0, 0, 0, 0, 0, 0],
  [0, 0, 0, 0, 0, 0, 0, 0, 0],
  [0, 0, 0, 0, 0, 0, 0, 0, 0],
  [0, 0, 0, 0, 0, 0, 0, 0, 0],
  [0, 0, 1, 1, 1, 1, 1, 1, 1],
  [1, 1, 1, 1, 1, 1, 1, 1, 1],
  [1, 1, 1, 1, 1, 1, 1, 1, 1]]

theorem searchReach_trans {b0 b1 b2 : Board}
    (h1 : SearchReach b0 b1) (h2 : SearchReach b1 b2) : SearchReach b0 b2 := by
  induction h2 with
  | start => exact h1
  | place b r c num hr hfe hnum hv ih => exact SearchReach.place b r c num ih hfe hnum hv

theorem solveTry_reaches (fuel : Nat)
    (IH : ∀ b res b2, solve fuel b = some (res, b2) → SearchReach b b2) :
    ∀ (nums : List Int) (b : Board) (r c : Nat),
      getCell b r c = 0 → find_empty b = some (r, c) → (∀ num ∈ nums, num ∈ digitsL) →
      ∀ res b2, solveTry (solve fuel) r c b nums = some (res, b2) → SearchReach b b2 := by
  intro nums
  induction nums with
  | nil =>
    intro b r c h0 hfe hnums res b2 hres
    simp only [solveTry] at hres
    cases hres
    exact SearchReach.start
  | cons num rest ih =>
    intro b r c h0 hfe hnums res b2 hres
    simp only [solveTry] at hres
    by_cases hv : is_valid b num (r, c)
    · rw [if_pos hv] at hres
      cases hsolve : solve fuel (setCell b r c num) with
      | none => rw [hsolve] at hres; cases hres
      | some rp =>
        rcases rp with ⟨rb, bb⟩
        cases rb with
        | true =>
          rw [hsolve] at hres
          have hres2 : (some (true, bb) : Option (Bool × Board)) = some (res, b2) := hres
          cases hres2
          have hstep : SearchReach b (setCell b r c num) :=
            SearchReach.place b r c num SearchReach.start hfe
              (hnums num (List.mem_cons_self _ _)) hv
          exact searchReach_trans hstep (IH _ _ _ hsolve)
        | false =>
          rw [hsolve] at hres
          have hres2 : solveTry (solve fuel) r c (setCell bb r c 0) rest = some (res, b2) :=
            hres
          have hbb : bb = setCell b r c num := solve_false_eq fuel _ _ hsolve
          rw [hbb, setCell_setCell, setCell_restore b r c h0] at hres2
          exact ih b r c h0 hfe (fun n hn => hnums n (List.mem_cons_of_mem _ hn)) res b2 hres2
    · rw [if_neg hv] at hres
      exact ih b r c h0 hfe (fun n hn => hnums n (List.mem_cons_of_mem _ hn)) res b2 hres

/-- The exit board of any call of `solve` is reachable (by validated
placements) from its entry board. -/
theorem solve_reaches : ∀ (fuel : Nat) (b : Board) (res : Bool) (b2 : Board),
    solve fuel b = some (res, b2) → SearchReach b b2 := by
  intro fuel
  induction fuel with
  | zero => intro b res b2 h; cases h
  | succ n ih =>
    intro b res b2 hres
    simp only [solve] at hres
    cases hfe : find_empty b with
    | none =>
      rw [hfe] at hres
      have hres2 : (some (true, b) : Option (Bool × Board)) = some (res, b2) := hres
      cases hres2
      exact SearchReach.start
    | some p =>
      rw [hfe] at hres
      have hz := (find_empty_some hfe).1
      exact solveTry_reaches n ih digitsL b p.1 p.2 hz hfe (fun n hn => hn) res b2 hres

/-! ### The claims -/

/-- C1 (counterexample): the claim "for every input board, a grid
returned by `solve_sudoku` has every row, column and box containing each
digit 1-9 exactly once" fails: a full 9x9 board containing the
out-of-range value 15 passes the shape-only validation, is returned
unchanged as a "solution", and its row 0 does not contain each digit
exactly once. -/
theorem solve_sudoku_valid_counterexample :
    solve_sudoku cexOutOfRange = some cexOutOfRange ∧ fullValid cexOutOfRange = false := by
  constructor
  · decide
  · decide

/-- C1 (amended): for every input board whose 81 cells hold values in
[0, 9] and whose filled cells are free of row/column/box conflicts, any
grid returned by `solve_sudoku` has every row, every column and every 3x3
box containing each digit 1-9 exactly once. -/
theorem solve_sudoku_returns_fullValid (b b2 : Board)
    (hrange : cellsInRange b = true) (hnc : noConflicts b = true)
    (hsome : solve_sudoku b = some b2) : fullValid b2 = true := by
  by_cases hs : shapeOK b
  · have hrun := solve_sudoku_some hs hsome
    have hpres := solve_preserve (countEmpty b + 1) b hs hnc hrange true b2 hrun
    rcases hpres with ⟨⟨hs2, hnc2, hir2⟩, hfe⟩
    have hfull := (find_empty_none_iff b2).mp (hfe rfl)
    exact fullValid_of_invariants b2 hnc2 hir2 hfull
  · exfalso
    unfold solve_sudoku at hsome
    rw [if_neg hs] at hsome
    cases hsome

theorem solve_sudoku_returns_fullValid_witness :
    cellsInRange gridOneEmpty = true ∧ noConflicts gridOneEmpty = true ∧
    solve_sudoku gridOneEmpty = some solvedGrid ∧ fullValid solvedGrid = true := by
  refine ⟨by decide, by decide, by decide, ?_⟩
  exact solve_sudoku_returns_fullValid gridOneEmpty solvedGrid (by decide) (by decide) (by decide)

/-- C2 (counterexample): the claim "a 9x9 board with two identical
non-zero digits in the same row always makes `solve_sudoku` return
`None`" fails: this full board has two 1s in row 0 yet `solve_sudoku`
returns it as a solution rather than `None`. -/
theorem row_conflict_counterexample :
    getCell cexRowDup 0 0 = getCell cexRowDup 0 1 ∧ getCell cexRowDup 0 0 ≠ 0 ∧
    solve_sudoku cexRowDup = some cexRowDup := by
  refine ⟨by decide, by decide, by decide⟩

/-- C2 (amended): for every 9x9 board with two identical non-zero digits
in the same row (both cells fixed), `solve_sudoku` either returns `None`,
or returns a grid in which those two cells still hold the same non-zero
digit — hence never a grid satisfying the all-units exactly-once
property. -/
theorem row_conflict_no_valid_solution (b b2 : Board) (r c1 c2 : Nat)
    (hr : r < 9) (hc1 : c1 < 9) (hc2 : c2 < 9) (hne : c1 ≠ c2)
    (heq : getCell b r c1 = getCell b r c2) (hnz : getCell b r c1 ≠ 0)
    (hsome : solve_sudoku b = some b2) :
    getCell b2 r c1 = getCell b2 r c2 ∧ getCell b2 r c1 ≠ 0 ∧ fullValid b2 = false := by
  have hs : shapeOK b = true := by
    by_contra hns
    unfold solve_sudoku at hsome
    rw [if_neg hns] at hsome
    cases hsome
  have hrun := solve_sudoku_some hs hsome
  have h1 : getCell b2 r c1 = getCell b r c1 := solve_fixed _ _ _ _ hrun r c1 hnz
  have h2 : getCell b2 r c2 = getCell b r c2 := by
    refine solve_fixed _ _ _ _ hrun r c2 ?_
    rw [← heq]
    exact hnz
  have hpersist : getCell b2 r c1 = getCell b2 r c2 := by rw [h1, h2, heq]
  have hnz2 : getCell b2 r c1 ≠ 0 := by rw [h1]; exact hnz
  refine ⟨hpersist, hnz2, ?_⟩
  have hrowdup : exactlyOnce (rowCells b2 r) = false := by
    refine exactlyOnce_false_of_dup (rowCells b2 r) (rowCells_length b2 r) hc1 hc2 hne ?_
    rw [rowCells_getD b2 r c1 hc1, rowCells_getD b2 r c2 hc2]
    exact hpersist
  rw [Bool.eq_false_iff]
  intro hfv
  rw [fullValid_true_row hfv hr] at hrowdup
  cases hrowdup

theorem row_conflict_no_valid_solution_witness :
    getCell cexRowDup 0 0 = getCell cexRowDup 0 1 ∧ getCell cexRowDup 0 0 ≠ 0 ∧
    fullValid cexRowDup = false := by
  have h := row_conflict_no_valid_solution cexRowDup cexRowDup 0 0 1
    (by decide) (by decide) (by decide) (by decide) (by decide) (by decide) (by decide)
  exact ⟨by decide, by decide, h.2.2⟩

/-- C3 (counterexample): the claim that `find_empty` always returns a
cell whose candidate count is the minimum over all empty cells fails: on
this board the scan early-exits at cell (0,0) with one candidate, while
the empty cell (8,8) has zero candidates. -/
theorem find_empty_min_counterexample :
    find_empty cexEarlyExit = some (0, 0) ∧ countCandidates cexEarlyExit 0 0 = 1 ∧
    getCell cexEarlyExit 8 8 = 0 ∧ countCandidates cexEarlyExit 8 8 = 0 := by
  refine ⟨by decide, by decide, by decide, by decide⟩

/-- C3 (amended): on every 9x9 board with at least one empty cell,
`find_empty` returns an empty cell that is strictly better (fewer
candidates) than every empty cell earlier in row-major scan order — so
among cells of its count it is the first in scan order — and whose
candidate count either equals 1 (early exit) or is the minimum over all
empty cells of the board. -/
theorem find_empty_mrv_amended (b : Board) (hs : shapeOK b = true)
    (hne : ∃ q : Nat × Nat, q.1 < 9 ∧ q.2 < 9 ∧ getCell b q.1 q.2 = 0) :
    ∃ p, find_empty b = some p ∧ getCell b p.1 p.2 = 0 ∧ p.1 < 9 ∧ p.2 < 9 ∧
      (∀ q : Nat × Nat, q.1 < 9 → q.2 < 9 → getCell b q.1 q.2 = 0 → rmLt q p →
        countCandidates b p.1 p.2 < countCandidates b q.1 q.2) ∧
      (countCandidates b p.1 p.2 = 1 ∨
        ∀ q : Nat × Nat, q.1 < 9 → q.2 < 9 → getCell b q.1 q.2 = 0 →
          countCandidates b p.1 p.2 ≤ countCandidates b q.1 q.2) := by
  cases hfe : find_empty b with
  | none =>
    exfalso
    rcases hne with ⟨q, h1, h2, h3⟩
    exact (find_empty_none_iff b).mp hfe q.1 q.2 h1 h2 h3
  | some p =>
    exact ⟨p, rfl, find_empty_mrv b p hfe⟩

theorem find_empty_mrv_amended_witness :
    ∃ p, find_empty gridOneEmpty = some p ∧
      getCell gridOneEmpty p.1 p.2 = 0 ∧ p.1 < 9 ∧ p.2 < 9 ∧
      (∀ q : Nat × Nat, q.1 < 9 → q.2 < 9 → getCell gridOneEmpty q.1 q.2 = 0 → rmLt q p →
        countCandidates gridOneEmpty p.1 p.2 < countCandidates gridOneEmpty q.1 q.2) ∧
      (countCandidates gridOneEmpty p.1 p.2 = 1 ∨
        ∀ q : Nat × Nat, q.1 < 9 → q.2 < 9 → getCell gridOneEmpty q.1 q.2 = 0 →
          countCandidates gridOneEmpty p.1 p.2 ≤ countCandidates gridOneEmpty q.1 q.2) :=
  find_empty_mrv_amended gridOneEmpty (by decide) ⟨(0, 0), by decide, by decide, by decide⟩

/-- C4: starting from a board satisfying the no-conflicts invariant
(row, column and box uniqueness over all filled cells), every board
reachable during the search — the entry board of every recursive call —
satisfies the invariant, and so does the board at the exit of every call
of `solve`. -/
theorem search_preserves_invariant (b0 : Board)
    (hs : shapeOK b0 = true) (hnc : noConflicts b0 = true) :
    (∀ b, SearchReach b0 b → noConflicts b = true) ∧
    (∀ fuel res b2, solve fuel b0 = some (res, b2) → noConflicts b2 = true) := by
  constructor
  · intro b hreach
    exact (searchReach_invariant hs hnc b hreach).2
  · intro fuel res b2 hrun
    exact (searchReach_invariant hs hnc b2 (solve_reaches fuel b0 res b2 hrun)).2

theorem search_preserves_invariant_witness :
    (∀ b, SearchReach gridOneEmpty b → noConflicts b = true) ∧
    (∀ fuel res b2, solve fuel gridOneEmpty = some (res, b2) → noConflicts b2 = true) :=
  search_preserves_invariant gridOneEmpty (by decide) (by decide)

/-- C5: whenever a call of `solve` returns `false`, the board it hands
back is cell-for-cell the board it received: every trial placement has
been undone. -/
theorem solve_false_restores_board (fuel : Nat) (b b2 : Board)
    (hs : shapeOK b = true) (h : solve fuel b = some (false, b2)) : b2 = b :=
  solve_false_eq fuel b b2 h

theorem solve_false_restores_board_witness :
    unsolvableBoard = unsolvableBoard ∧
    solve 1 unsolvableBoard = some (false, unsolvableBoard) :=
  ⟨solve_false_restores_board 1 unsolvableBoard unsolvableBoard (by decide) (by decide),
    by decide⟩

/-- C6: any input failing the shape validation (not exactly 9 rows of 9
entries each) makes `solve_sudoku` return `None` at once, before the
search is consulted. -/
theorem shape_invalid_returns_none (b : Board) (h : shapeOK b = false) :
    solve_sudoku b = none := by
  unfold solve_sudoku
  rw [h]
  simp

theorem shape_invalid_returns_none_witness :
    shapeOK badShape = false ∧ solve_sudoku badShape = none :=
  ⟨by decide, shape_invalid_returns_none badShape (by decide)⟩

/-- C7: `solve_sudoku` works on an internally owned copy and returns the
caller's board object unchanged (`solve_sudoku_call` pairs the result
with the caller's board state after the call); hence a second call on the
board left behind by a first call returns the same result as the first
call. -/
theorem solve_sudoku_never_mutates (b : Board) :
    (solve_sudoku_call b).2 = b ∧
    (solve_sudoku_call ((solve_sudoku_call b).2)).1 = (solve_sudoku_call b).1 :=
  ⟨rfl, rfl⟩

/-- C8: on every well-shaped board the search terminates — the fuel bound
`countEmpty + 1` is never exhausted, because each placement on the
selected empty cell strictly reduces the number of empty cells by one and
only 9 digits are tried per level. -/
theorem solve_terminates (b : Board) (hs : shapeOK b = true) :
    (∀ fuel, countEmpty b < fuel → solve fuel b ≠ none) ∧
    (∀ r c num, find_empty b = some (r, c) → num ≠ 0 →
      countEmpty (setCell b r c num) + 1 = countEmpty b) := by
  constructor
  · intro fuel hfuel
    exact solve_total fuel b hs hfuel
  · intro r c num hfe hnz
    rcases find_empty_some hfe with ⟨hz, h1, h2⟩
    exact countEmpty_setCell hs h1 h2 hz hnz

theorem solve_terminates_witness :
    solve 2 gridOneEmpty ≠ none ∧
    countEmpty (setCell gridOneEmpty 0 0 1) + 1 = countEmpty gridOneEmpty :=
  ⟨(solve_terminates gridOneEmpty (by decide)).1 2 (by decide),
    (solve_terminates gridOneEmpty (by decide)).2 0 0 1 (by decide) (by decide)⟩

/-- C9: `analyze_board_complexity` reports the empty-cell count, the
label determined by the thresholds 40/50/55 (Easy below 40, Medium below
50, Hard below 55, Expert otherwise) and the branching estimate equal to
nine times the empty-cell count. -/
theorem analyze_board_complexity_spec (b : Board) :
    (analyze_board_complexity b).empty_cells = countEmpty b ∧
    (analyze_board_complexity b).branching_factor = countEmpty b * 9 ∧
    (countEmpty b < 40 →
      (analyze_board_complexity b).complexity_estimate = "Easy") ∧
    (40 ≤ countEmpty b → countEmpty b < 50 →
      (analyze_board_complexity b).complexity_estimate = "Medium") ∧
    (50 ≤ countEmpty b → countEmpty b < 55 →
      (analyze_board_complexity b).complexity_estimate = "Hard") ∧
    (55 ≤ countEmpty b →
      (analyze_board_complexity b).complexity_estimate = "Expert") := by
  refine ⟨rfl, rfl, ?_, ?_, ?_, ?_⟩
  · intro h
    simp only [analyze_board_complexity]
    rw [if_pos h]
  · intro h1 h2
    simp only [analyze_board_complexity]
    rw [if_neg (by omega), if_pos h2]
  · intro h1 h2
    simp only [analyze_board_complexity]
    rw [if_neg (by omega), if_neg (by omega), if_pos h2]
  · intro h
    simp only [analyze_board_complexity]
    rw [if_neg (by omega), if_neg (by omega), if_neg (by omega)]

theorem analyze_board_complexity_spec_witness :
    countEmpty board41 = 41 ∧
    (analyze_board_complexity board41).complexity_estimate = "Medium" ∧
    countEmpty board39 = 39 ∧
    (analyze_board_complexity board39).complexity_estimate = "Easy" ∧
    countEmpty board56 = 56 ∧
    (analyze_board_complexity board56).complexity_estimate = "Expert" := by
  have h41 : countEmpty board41 = 41 := by decide
  have h39 : countEmpty board39 = 39 := by decide
  have h56 : countEmpty board56 = 56 := by decide
  refine ⟨h41, ?_, h39, ?_, h56, ?_⟩
  · exact (analyze_board_complexity_spec board41).2.2.2.1 (by omega) (by omega)
  · exact (analyze_board_complexity_spec board39).2.2.1 (by omega)
  · exact (analyze_board_complexity_spec board56).2.2.2.2.2 (by omega)

/-- C10: the entry validation of `solve_sudoku` inspects dimensions only:
a well-shaped board is never rejected for its values — when it has no
empty (zero) cell it is returned unchanged as a "solution" (even if some
entry lies outside [0, 9], as the witness shows with the value 15), and a
`None` answer can only arise from the search itself exhausting its
digit choices. -/
theorem entry_validation_shape_only (b : Board) (hs : shapeOK b = true) :
    (countEmpty b = 0 → solve_sudoku b = some b) ∧
    (solve_sudoku b = none → solve (countEmpty b + 1) b = some (false, b)) := by
  constructor
  · intro h
    refine solve_sudoku_of_full b hs ?_
    intro i j hi hj hz
    have := countEmpty_pos hs hi hj hz
    omega
  · exact solve_sudoku_none hs

theorem entry_validation_shape_only_witness :
    shapeOK fullOutOfRange = true ∧ countEmpty fullOutOfRange = 0 ∧
    solve_sudoku fullOutOfRange = some fullOutOfRange ∧
    getCell fullOutOfRange 4 4 = 15 :=
  ⟨by decide, by decide,
    (entry_validation_shape_only fullOutOfRange (by decide)).1 (by decide), by decide⟩
